import Mathlib

/-! Verification development for the simple-markdown core engine
(svelte-simple-markdown): a shallow embedding of the parser engine
(createParser / nestedParse / outerParse / populateInitialState from the
parser module), the RuleList registry, and the forward-reference resolver
(parseRef and the def rule from default-rules.ts), together with theorems
about the engine behaviour.

Modelling conventions:
- JavaScript values stored in the extensible parse-state bag are modelled by
  the inductive JSVal; parser state (a mutable JS object) is an association
  list with JS-object key semantics (unique keys, assignment updates the
  first matching key or appends).
- Machine numbers used by quality scorers are modelled as rationals; the
  JS NaN used to initialise the best quality in the rule walk is modelled
  by the none case of an Option, and the negated comparison
  !(currQuality <= quality) of the source becomes: accept when no best
  candidate exists yet, or when the new quality is strictly greater.
- The possibly non-terminating while loop of nestedParse is modelled with
  explicit fuel; the loop body never reaches the fuel-out case in the
  terminating executions the claims are about.
- Fallible engine code (throw statements) returns Except ParseErr.
-/

namespace SimpleMarkdown

/-- A JavaScript value as it appears in parse-state bags. -/
inductive JSVal where
  | undef
  | bool (b : Bool)
  | str (s : String)
  | num (q : ℚ)
  | capture (head : String) (groups : List (Option String)) (index : Option Nat)
deriving DecidableEq

/-- JS truthiness for the values we model. -/
def JSVal.truthy : JSVal → Bool
  | .undef => false
  | .bool b => b
  | .str s => s ≠ ""
  | .num q => q ≠ 0
  | .capture _ _ _ => true

/-- A parse state: a JS object, i.e. a key/value bag with unique keys. -/
abbrev Bag := List (String × JSVal)

/-- First-match association-list lookup: reading a property of a JS object. -/
def lookupAssoc {α : Type} : List (String × α) → String → Option α
  | [], _ => none
  | (k', v') :: rest, k => if k' = k then some v' else lookupAssoc rest k

/-- JS property assignment on an object: replace the value of an existing
key, or append the key at the end (insertion order). -/
def setAssoc {α : Type} : List (String × α) → String → α → List (String × α)
  | [], k, v => [(k, v)]
  | (k', v') :: rest, k, v =>
    if k' = k then (k', v) :: rest else (k', v') :: setAssoc rest k v

/-- Reading a state property, JS-style: an absent key reads as undefined,
which is falsy. -/
def bagTruthy (st : Bag) (k : String) : Bool :=
  match lookupAssoc st k with
  | some v => v.truthy
  | none => false

/-- populateInitialState from the parser module: start from the given state
(or an empty object when none is supplied) and copy every own property of
defaultState over it. Note the source copies the DEFAULT value over the
caller value for every key the default state owns.
-/
def populateInitialState (givenState : Option Bag) (defaultState : Bag) : Bag :=
  defaultState.foldl (fun st kv => setAssoc st kv.1 kv.2) (givenState.getD [])

/-- A regex-match-like capture: group 0 (the full consumed text), the
remaining groups (possibly undefined), and the optional index property
(hand-written match functions may return a plain array carrying no index). -/
structure Capture where
  head : String
  groups : List (Option String)
  index : Option Nat
deriving DecidableEq

/-- The engine error conditions of nestedParse.  noMatchingRule and
unanchoredCapture are the two throw statements of the loop;
typeErrorNoRules models the JS TypeError raised when the rule list is
empty (the do-while body dereferences an undefined rule); outOfFuel is the
fuel artifact standing for non-termination of the JS while loop. -/
inductive ParseErr where
  | noMatchingRule (source : String)
  | unanchoredCapture
  | typeErrorNoRules
  | outOfFuel
deriving DecidableEq

/-- An AST node as the engine sees it: a type tag and a content field that
is either absent, a string, or a list of child nodes.  Rule-specific extra
fields are not read or written by the engine loop and are elided. -/
inductive ASTNode where
  | mk (type : String) (content : Option (String ⊕ List ASTNode))

/-- The type tag of a node. -/
def ASTNode.type : ASTNode → String
  | .mk t _ => t

/-- The content field of a node. -/
def ASTNode.content : ASTNode → Option (String ⊕ List ASTNode)
  | .mk _ c => c

/-- A node as returned by a rule parse function: the type tag may be
omitted (the engine then fills it in from the rule name). -/
structure TypeOptionalASTNode where
  type : Option String
  content : Option (String ⊕ List ASTNode)

/-- The type of the recursive parse callback handed to rule parse
functions (nestedParse itself in the source). -/
abbrev Parser := String → Bag → Except ParseErr (List ASTNode × Bag)

/-- A parser rule: name, match function, parse function and optional
quality scorer, as in ParserRule of type.ts.  The field corresponding to
the source property match is called matchFn because match is a reserved
word. -/
structure Rule where
  name : String
  matchFn : String → Bag → Option Capture
  parse : Capture → Parser → Bag → Except ParseErr (TypeOptionalASTNode × Bag)
  quality : Option (Capture → Bag → ℚ)

/-- The best-candidate record kept by the rule walk of nestedParse:
ruleType/rule/capture/quality, plus the position of the rule in the
priority order. -/
structure Cand where
  idx : Nat
  rule : Rule
  capture : Capture
  quality : ℚ

/-- The quality of a capture under a rule: the scorer result when the rule
declares one, else 0 (currRule.quality ? currRule.quality(...) : 0). -/
def qualOf (r : Rule) (cap : Capture) (st : Bag) : ℚ :=
  match r.quality with
  | some f => f cap st
  | none => 0

/-- One body execution of the do-while rule walk: try the current rule; on
a match, replace the best candidate iff there is none yet (the initial
quality is NaN, so the negated comparison accepts) or the new quality is
strictly greater. -/
def step (source : String) (state : Bag) (b : Option Cand) (r : Rule) (i : Nat) :
    Option Cand :=
  match r.matchFn source state with
  | none => b
  | some cap =>
    let q := qualOf r cap state
    match b with
    | none => some ⟨i, r, cap, q⟩
    | some c => if c.quality < q then some ⟨i, r, cap, q⟩ else some c

/-- The do-while rule walk of nestedParse over the priority-ordered rule list,
starting at position i with current best candidate b.  Returns the final
best candidate and the list of positions of the rules that were consulted
(whose match function was invoked).  After consulting a rule, the walk
continues exactly when another rule follows and (no candidate is held yet,
or that following rule declares a quality scorer) — the loop condition
currRule && (!capture || currRule.quality) of the source.
-/
def walkAux (source : String) (state : Bag) :
    Nat → Option Cand → List Rule → Option Cand × List Nat
  | _, b, [] => (b, [])
  | i, b, [r] => (step source state b r i, [i])
  | i, b, r :: r' :: rest =>
    let b' := step source state b r i
    if b'.isSome && r'.quality.isNone then (b', [i])
    else
      let p := walkAux source state (i + 1) b' (r' :: rest)
      (p.1, i :: p.2)

/-- The full rule walk at one parse position: start before the first rule
with no candidate (quality NaN in the source). -/
def walk (rules : List Rule) (source : String) (state : Bag) :
    Option Cand × List Nat :=
  walkAux source state 0 none rules

/-- The string coercion JS applies when concatenating a value onto a
string with the += operator: strings stay themselves, an array of node
objects prints as "[object Object]" entries joined by commas, an absent
value prints as "undefined".  (The engine only ever exercises the
string/string case, since text nodes carry string content; the JS corner
case undefined + undefined, which yields the number NaN, is outside every
behaviour the engine relies on and is represented by the string
concatenation of the coercions.) -/
def contentToString : Option (String ⊕ List ASTNode) → String
  | none => "undefined"
  | some (.inl s) => s
  | some (.inr ns) => String.intercalate "," (ns.map fun _ => "[object Object]")

/-- Text-node collapsing of nestedParse: when the newly built node and the
previously appended node both have type text, concatenate the new content
onto the previous node instead of appending
(result[result.length - 1].content += parsed.content). -/
def appendNode : List ASTNode → ASTNode → List ASTNode
  | [], node => [node]
  | [last], node =>
    if node.type = "text" ∧ last.type = "text" then
      [.mk last.type (some (.inl (contentToString last.content ++
        contentToString node.content)))]
    else [last, node]
  | x :: rest, node => x :: appendNode rest node

/-- The engine fills in a missing (or empty: the source tests falsiness of
parsed.type) type tag with the rule name (here, the ruleType key of the
priority order, which equals the rule name under the registry invariant
that names are unique). -/
def defaultType (t : Option String) (ruleName : String) : String :=
  match t with
  | some s => if s = "" then ruleName else s
  | none => ruleName

/-- The anchor check of nestedParse: if (capture.index) — the index
property is truthy exactly when it is present and nonzero.  A capture
carrying no index property (a plain array from a hand-written match
function) is never rejected. -/
def anchorViolated (c : Capture) : Bool :=
  match c.index with
  | some k => k != 0
  | none => false

/-- The while loop of nestedParse, with explicit fuel.  result is the node
list accumulated so far (nestedParse starts it empty).  Per iteration:
if the remaining source is empty the loop ends and the accumulated result
is returned; otherwise run the rule walk, fail with the no-matching-rule
throw when no candidate was found (or when the winning ruleType is the
empty string, which the falsiness test of the source also sends into that
throw; an empty rule list instead dereferences an undefined rule, a JS
TypeError); fail with the unanchored-capture throw when the winning
capture has a truthy index; otherwise invoke the winning rule parse
function with the recursive parser, default the node type to the rule
name, append (or text-collapse) the node, record prevCapture, and advance
the cursor by the length of group 0 of the capture.

The source threads the shared mutable state object; here the state is
passed and returned explicitly.  (The state || latestState fallback for an
omitted state argument is not modelled: every call site in the repository
passes the state.)
-/
def parseLoop (rules : List Rule) :
    Nat → List ASTNode → String → Bag → Except ParseErr (List ASTNode × Bag)
  | 0, result, source, state =>
    if source.isEmpty then .ok (result, state) else .error .outOfFuel
  | f + 1, result, source, state =>
    if source.isEmpty then .ok (result, state)
    else
        match rules with
        | [] => .error .typeErrorNoRules
        | _ :: _ =>
          match (walk rules source state).1 with
          | none => .error (.noMatchingRule source)
          | some c =>
            if c.rule.name = "" then .error (.noMatchingRule source)
            else if anchorViolated c.capture then .error .unanchoredCapture
            else
              match c.rule.parse c.capture
                  (fun src st => parseLoop rules f [] src st) state with
              | .error e => .error e
              | .ok (parsed, state₁) =>
                let node : ASTNode :=
                  .mk (defaultType parsed.type c.rule.name) parsed.content
                let state₂ := setAssoc state₁ "prevCapture"
                  (.capture c.capture.head c.capture.groups c.capture.index)
                parseLoop rules f (appendNode result node)
                  (source.drop c.capture.head.length) state₂

/-- nestedParse: run the loop with an empty accumulated result. -/
def nestedParse (rules : List Rule) (fuel : Nat) (source : String) (state : Bag) :
    Except ParseErr (List ASTNode × Bag) :=
  parseLoop rules fuel [] source state

/-- Replace carriage-return/line-feed pairs and lone carriage returns with
line feeds (the CR_NEWLINE_R replacement). -/
def replaceCRLF : List Char → List Char
  | [] => []
  | '\r' :: '\n' :: rest => '\n' :: replaceCRLF rest
  | '\r' :: rest => '\n' :: replaceCRLF rest
  | c :: rest => c :: replaceCRLF rest

/-- Remove form feeds (the FORMFEED_R replacement). -/
def stripFormfeed (l : List Char) : List Char :=
  l.filter (fun c => c ≠ '\x0c')

/-- Expand each tab to four spaces (the TAB_R replacement). -/
def expandTabs (l : List Char) : List Char :=
  (l.map fun c => if c = '\t' then [' ', ' ', ' ', ' '] else [c]).flatten

/-- preprocess: the three replacements applied in source order. -/
def preprocess (s : String) : String :=
  ⟨expandTabs (stripFormfeed (replaceCRLF s.data))⟩

/-- outerParse, the function createParser returns: merge the caller state with
the engine default state via populateInitialState; unless the merged state
has a truthy inline or a truthy disableAutoBlockNewlines, append two
newlines to the source; clear prevCapture; preprocess; and run the loop.
The caller receives the node list (the state object is internal).  In the
source the state parameter defaults to an object with inline set to false
when the caller omits it; callers here pass the state explicitly.
-/
def outerParse (rules : List Rule) (defaultState : Bag) (fuel : Nat)
    (source : String) (state : Bag) : Except ParseErr (List ASTNode) :=
  let latest := populateInitialState (some state) defaultState
  let source₁ :=
    if !bagTruthy latest "inline" && !bagTruthy latest "disableAutoBlockNewlines"
    then source ++ "\n\n" else source
  let latest₁ := setAssoc latest "prevCapture" .undef
  (parseLoop rules fuel [] (preprocess source₁) latest₁).map Prod.fst

/-! The RuleList registry (rule-list.ts).  RuleList extends Array; registries
are mutable JS array objects, so aliasing matters for the clone isolation
claim.  The heap of live registry arrays is modelled as a list of rule
lists, and a registry is an index into that heap; every mutating method
rewrites the array at its registry index.
-/

/-- The heap of live RuleList array objects. -/
abbrev RuleStore := List (List Rule)

/-- new RuleList(input): allocate a fresh array object holding a copy of
the input sequence (the constructor pushes Array.from(input)); returns the
extended heap and the id of the new registry. -/
def ruleListNew (s : RuleStore) (input : List Rule) : RuleStore × Nat :=
  (s ++ [input], s.length)

/-- clone(): new RuleList(this) — a fresh array object with the same
ordered rule references. -/
def ruleListClone (s : RuleStore) (i : Nat) : RuleStore × Nat :=
  ruleListNew s ((s.get? i).getD [])

/-- findIndex of the rule with the given name. -/
def findIdxByName (l : List Rule) (anchor : String) : Option Nat :=
  l.findIdx? (fun r => r.name = anchor)

/-- insertBefore on the underlying array: splice the new rule in at the
anchor index, failing when the anchor name is absent. -/
def listInsertBefore (l : List Rule) (anchor : String) (nr : Rule) :
    Except String (List Rule) :=
  match findIdxByName l anchor with
  | none => .error ("Rule " ++ anchor ++ " not found")
  | some idx => .ok (l.take idx ++ nr :: l.drop idx)

/-- insertAfter on the underlying array: splice in at the index after the
anchor, same failure mode. -/
def listInsertAfter (l : List Rule) (anchor : String) (nr : Rule) :
    Except String (List Rule) :=
  match findIdxByName l anchor with
  | none => .error ("Rule " ++ anchor ++ " not found")
  | some idx => .ok (l.take (idx + 1) ++ nr :: l.drop (idx + 1))

/-- remove on the underlying array: splice the anchor rule out, same
failure mode. -/
def listRemove (l : List Rule) (anchor : String) : Except String (List Rule) :=
  match findIdxByName l anchor with
  | none => .error ("Rule " ++ anchor ++ " not found")
  | some idx => .ok (l.take idx ++ l.drop (idx + 1))

/-- add: push at the end (never fails). -/
def listAdd (l : List Rule) (nr : Rule) : Except String (List Rule) :=
  .ok (l ++ [nr])

/-- The four mutating registry operations. -/
inductive RegMutation where
  | add (r : Rule)
  | insertBefore (anchor : String) (r : Rule)
  | insertAfter (anchor : String) (r : Rule)
  | remove (anchor : String)

/-- Apply a mutation to a rule sequence. -/
def applyListMutation (l : List Rule) : RegMutation → Except String (List Rule)
  | .add r => listAdd l r
  | .insertBefore a r => listInsertBefore l a r
  | .insertAfter a r => listInsertAfter l a r
  | .remove a => listRemove l a

/-- Apply a mutation to the registry with id i: read its array, apply the
list operation, and write the array back in place. -/
def applyMutation (s : RuleStore) (i : Nat) (m : RegMutation) :
    Except String RuleStore :=
  (applyListMutation ((s.get? i).getD []) m).map (fun l => s.set i l)

/-! The forward-reference resolver: parseRef and the parse function of the
def rule from default-rules.ts.  The engine keeps returned node objects
shared and mutable (the def rule patches link/image nodes already emitted
elsewhere in the tree), so reference nodes live in a per-parse arena and
are addressed by id; the _defs and _refs side tables of the parse state
map normalized names to a definition and to the pending node ids.
-/

/-- A link or image node as the resolver sees it (RefNode of type.ts):
target and title start absent and are patched in. -/
structure RefNode where
  type : String
  target : Option String
  title : Option String
deriving DecidableEq

/-- The resolver-relevant part of one parse invocation: the arena of
reference nodes built so far, the _defs table (normalized name to
target/title) and the _refs table (normalized name to pending node ids). -/
structure RefEnv where
  arena : List RefNode
  defs : List (String × (String × Option String))
  refs : List (String × List Nat)
deriving DecidableEq

/-- Patch the target/title of the arena node with the given id (the
in-place mutation refNode.target = ...; refNode.title = ...). -/
def patchNode (arena : List RefNode) (i : Nat) (target : String)
    (title : Option String) : List RefNode :=
  match arena.get? i with
  | some n => arena.set i { n with target := some target, title := title }
  | none => arena

/-- JS whitespace (the \s class) for the characters the grammar can
produce. -/
def jsIsSpace (c : Char) : Bool :=
  c = ' ' ∨ c = '\t' ∨ c = '\n' ∨ c = '\r' ∨ c = '\x0c' ∨ c = '\x0b'

/-- Collapse every whitespace run to a single space; the flag records
whether the previous character was inside a run. -/
def collapseWsAux : Bool → List Char → List Char
  | _, [] => []
  | inRun, c :: rest =>
    if jsIsSpace c then
      if inRun then collapseWsAux true rest
      else ' ' :: collapseWsAux true rest
    else c :: collapseWsAux false rest

/-- Name normalization of parseRef and the def rule:
the whitespace-collapsing replace followed by toLowerCase. -/
def normalizeRef (s : String) : String :=
  ⟨(collapseWsAux false s.data).map Char.toLower⟩

/-- capture[2] || capture[1]: the ref name comes from group 2 unless that
group is absent or empty (falsy), in which case group 1 is used. -/
def refNameSource (c1 : String) (c2 : Option String) : String :=
  match c2 with
  | some s => if s = "" then c1 else s
  | none => c1

/-- Append a pending node id for a normalized name:
state._refs[ref] = state._refs[ref] || []; state._refs[ref].push(refNode).
-/
def appendRef : List (String × List Nat) → String → Nat → List (String × List Nat)
  | [], ref, id => [(ref, [id])]
  | (k, ids) :: rest, ref, id =>
    if k = ref then (k, ids ++ [id]) :: rest
    else (k, ids) :: appendRef rest ref id

/-- parseRef of default-rules.ts, over the arena: given the normalized ref
name and the id of the freshly built link/image node, fill the node
target/title from the _defs table when the definition was already seen,
and in every case register the node id in the pending list for the name. -/
def parseRef (ref : String) (nodeId : Nat) (env : RefEnv) : RefEnv :=
  let env₁ :=
    match lookupAssoc env.defs ref with
    | some (t, ti) => { env with arena := patchNode env.arena nodeId t ti }
    | none => env
  { env₁ with refs := appendRef env₁.refs ref nodeId }

/-- The parse function of the def rule: normalize the name, patch every
pending reference node for that name in place, and record the definition
for future references. -/
def defParse (capture1 target : String) (title : Option String) (env : RefEnv) :
    RefEnv :=
  let d := normalizeRef capture1
  let arena₁ :=
    match lookupAssoc env.refs d with
    | some ids => ids.foldl (fun a i => patchNode a i target title) env.arena
    | none => env.arena
  { arena := arena₁, refs := env.refs, defs := setAssoc env.defs d (target, title) }

/-- The resolver-relevant events of one parse, in document order: a
reflink occurrence (groups 1 and 2 of its capture) or a def occurrence
(group 1, target, optional title). -/
inductive RefEvent where
  | ref (c1 : String) (c2 : Option String)
  | defn (c1 : String) (target : String) (title : Option String)

/-- Run one event: a reflink allocates its node in the arena (the engine
appends the returned node object to the output, keeping it shared) and
runs parseRef on the normalized name; a def runs the def-rule parse. -/
def runEvent (env : RefEnv) : RefEvent → RefEnv
  | .ref c1 c2 =>
    let nodeId := env.arena.length
    let env₁ := { env with
      arena := env.arena ++ [{ type := "link", target := none, title := none }] }
    parseRef (normalizeRef (refNameSource c1 c2)) nodeId env₁
  | .defn c1 target title => defParse c1 target title env

/-- Run the resolver events of a document from the empty per-parse state. -/
def runEvents (events : List RefEvent) : RefEnv :=
  events.foldl runEvent ⟨[], [], []⟩

/-- No two consecutive nodes of a sequence both have type text. -/
def NoAdjacentText : List ASTNode → Prop
  | [] => True
  | [_] => True
  | a :: b :: rest =>
    ¬(a.type = "text" ∧ b.type = "text") ∧ NoAdjacentText (b :: rest)

/-! Concrete rules used to instantiate theorems with hypotheses on closed
inputs.
-/

/-- A parse function that builds a bare node and leaves the state alone. -/
def trivialParse : Capture → Parser → Bag → Except ParseErr (TypeOptionalASTNode × Bag) :=
  fun _ _ st => .ok (⟨none, none⟩, st)

/-- A rule whose match function never matches. -/
def ruleNoMatch : Rule :=
  { name := "never", matchFn := fun _ _ => none, parse := trivialParse,
    quality := none }

/-- A rule returning a capture whose index property is 2: the regex lacked
a start anchor. -/
def ruleBadAnchor : Rule :=
  { name := "bad", matchFn := fun _ _ => some ⟨"x", [], some 2⟩,
    parse := trivialParse, quality := none }

/-- A catch-all text rule: consume one character, build a text node from
it; the returned capture is a plain array without an index property. -/
def ruleTextX : Rule :=
  { name := "text",
    matchFn := fun src _ =>
      if src.isEmpty then none else some ⟨src.take 1, [], none⟩,
    parse := fun cap _ st => .ok (⟨some "text", some (.inl cap.head)⟩, st),
    quality := none }

/-- A scorer-less rule that matches one character of source. -/
def ruleM : Rule :=
  { name := "m", matchFn := fun _ _ => some ⟨"x", [], none⟩,
    parse := trivialParse, quality := none }

/-- A scorer-declaring rule matching two characters, scored by length. -/
def ruleQB : Rule :=
  { name := "qb", matchFn := fun _ _ => some ⟨"xy", [], none⟩,
    parse := trivialParse,
    quality := some (fun cap _ => (cap.head.length : ℚ)) }

/-- A scorer-less rule that would match three characters. -/
def ruleS : Rule :=
  { name := "s", matchFn := fun _ _ => some ⟨"zzz", [], none⟩,
    parse := trivialParse, quality := none }

/-- A scorer-declaring rule matching one character, scored by length. -/
def ruleQ1 : Rule :=
  { name := "strong", matchFn := fun _ _ => some ⟨"a", [], none⟩,
    parse := trivialParse,
    quality := some (fun cap _ => (cap.head.length : ℚ)) }

/-- A scorer-declaring rule matching two characters, scored by length. -/
def ruleQ2 : Rule :=
  { name := "u", matchFn := fun _ _ => some ⟨"ab", [], none⟩,
    parse := trivialParse,
    quality := some (fun cap _ => (cap.head.length : ℚ)) }

/-! Association-list lemmas for JS object property semantics. -/

theorem lookupAssoc_setAssoc_self {α : Type} (st : List (String × α)) (k : String) (v : α) :
    lookupAssoc (setAssoc st k v) k = some v := by
  induction st with
  | nil => simp [setAssoc, lookupAssoc]
  | cons hd tl ih =>
    obtain ⟨k₁, v₁⟩ := hd
    by_cases h : k₁ = k
    · subst h; simp [setAssoc, lookupAssoc]
    · simp [setAssoc, lookupAssoc, h, ih]

theorem lookupAssoc_setAssoc_ne {α : Type} (st : List (String × α)) (k k' : String) (v : α)
    (h : k ≠ k') : lookupAssoc (setAssoc st k v) k' = lookupAssoc st k' := by
  induction st with
  | nil => simp [setAssoc, lookupAssoc, h]
  | cons hd tl ih =>
    obtain ⟨k₁, v₁⟩ := hd
    by_cases h₁ : k₁ = k
    · subst h₁; simp [setAssoc, lookupAssoc, h]
    · by_cases h₂ : k₁ = k' <;>
        simp [setAssoc, lookupAssoc, h₁, h₂, ih, Ne.symm h]

theorem lookupAssoc_foldl_setAssoc_not_mem {α : Type} (l : List (String × α))
    (st : List (String × α)) (k : String) (h : ∀ p ∈ l, p.1 ≠ k) :
    lookupAssoc (l.foldl (fun s kv => setAssoc s kv.1 kv.2) st) k = lookupAssoc st k := by
  induction l generalizing st with
  | nil => simp [List.foldl]
  | cons hd tl ih =>
    simp only [List.foldl]
    rw [ih _ (fun p hp => h p (List.mem_cons_of_mem _ hp))]
    exact lookupAssoc_setAssoc_ne st hd.1 k hd.2 (h hd (List.mem_cons_self _ _))

/-- Claim C1, counterexample: populateInitialState does NOT let the
caller-supplied value win.  With the caller passing inline as true and the
engine default state carrying inline as false, the merged state maps
inline to the engine default false, not to the caller value true: the
source copies every default-state property over the caller state.
-/
theorem populateInitialState_caller_wins_refuted :
    lookupAssoc (populateInitialState (some [("inline", JSVal.bool true)])
      [("inline", JSVal.bool false)]) "inline" = some (JSVal.bool false) ∧
    lookupAssoc (populateInitialState (some [("inline", JSVal.bool true)])
      [("inline", JSVal.bool false)]) "inline" ≠ some (JSVal.bool true) := by
  constructor
  · rfl
  · decide

/-- Claim C1 (amended): when a top-level parse call merges the caller-supplied
initial state with the engine-configured default state, the
engine-configured values win: for every key the default state owns
(including keys also present in the caller state), the resulting state
maps that key to the default-state value.  Caller values survive only for
keys the default state does not own.
-/
theorem populateInitialState_default_wins (given dflt : Bag) (k : String) (v : JSVal)
    (hnd : (dflt.map Prod.fst).Nodup) (hv : lookupAssoc dflt k = some v) :
    lookupAssoc (populateInitialState (some given) dflt) k = some v := by
  induction dflt generalizing given with
  | nil => simp [lookupAssoc] at hv
  | cons hd tl ih =>
    obtain ⟨k₁, v₁⟩ := hd
    simp only [List.map, List.nodup_cons] at hnd
    by_cases h : k₁ = k
    · subst h
      rw [lookupAssoc, if_pos rfl] at hv
      have hnin : ∀ p ∈ tl, p.1 ≠ k₁ := by
        intro p hp hpk
        exact hnd.1 (hpk ▸ List.mem_map_of_mem Prod.fst hp)
      show lookupAssoc (tl.foldl (fun s kv => setAssoc s kv.1 kv.2)
        (setAssoc given k₁ v₁)) k₁ = some v
      rw [lookupAssoc_foldl_setAssoc_not_mem tl _ k₁ hnin,
        lookupAssoc_setAssoc_self given k₁ v₁]
      exact hv
    · rw [lookupAssoc, if_neg h] at hv
      exact ih (setAssoc given k₁ v₁) hnd.2 hv

/-- Witness for the amended claim C1 at a concrete merged state. -/
theorem populateInitialState_default_wins_witness :
    lookupAssoc (populateInitialState (some [("inline", JSVal.bool true)])
      [("inline", JSVal.bool false)]) "inline" = some (JSVal.bool false) :=
  populateInitialState_default_wins [("inline", JSVal.bool true)]
    [("inline", JSVal.bool false)] "inline" (JSVal.bool false)
    (by decide) (by rfl)

/-- Claim C4: forward-reference resolution is order independent.  A reflink
whose capture carries groups c1/c2 and a definition whose capture carries
group d1 with the given target and title produce — via parseRef and the
def-rule parse function, with the engine sharing the emitted node — a link
node carrying that target and title, whether the reference precedes the
definition or follows it.  The two inputs of the claim produce exactly
these two event sequences with c1 = "a", c2 = "x", d1 = "x",
target = "/url", title = "t".
-/
theorem refResolution_order_independent (c1 d1 target : String)
    (c2 title : Option String)
    (hn : normalizeRef (refNameSource c1 c2) = normalizeRef d1) :
    ((runEvents [.ref c1 c2, .defn d1 target title]).arena.get? 0 =
      some ⟨"link", some target, title⟩) ∧
    ((runEvents [.defn d1 target title, .ref c1 c2]).arena.get? 0 =
      some ⟨"link", some target, title⟩) := by
  constructor
  · simp [runEvents, runEvent, parseRef, defParse, appendRef, lookupAssoc,
      patchNode, hn, List.foldl]
  · simp [runEvents, runEvent, parseRef, defParse, appendRef, lookupAssoc,
      patchNode, hn, List.foldl]

/-- Witness for claim C4 at the concrete captures produced by the two
inputs of the claim. -/
theorem refResolution_order_independent_witness :
    ((runEvents [.ref "a" (some "x"), .defn "x" "/url" (some "t")]).arena.get? 0 =
      some ⟨"link", some "/url", some "t"⟩) ∧
    ((runEvents [.defn "x" "/url" (some "t"), .ref "a" (some "x")]).arena.get? 0 =
      some ⟨"link", some "/url", some "t"⟩) :=
  refResolution_order_independent "a" "x" "/url" (some "x") (some "t") (by rfl)

/-! Rule-walk lemmas. -/

theorem step_of_matchFn_none (source : String) (state : Bag) (b : Option Cand)
    (r : Rule) (i : Nat) (h : r.matchFn source state = none) :
    step source state b r i = b := by
  simp [step, h]

theorem walkAux_none_of_all_none (source : String) (state : Bag) :
    ∀ (l : List Rule) (i : Nat), (∀ r ∈ l, r.matchFn source state = none) →
      walkAux source state i none l = (none, List.range' i l.length) := by
  intro l
  induction l with
  | nil => intro i h; simp [walkAux, List.range']
  | cons r tl ih =>
    intro i h
    cases tl with
    | nil =>
      simp [walkAux, step_of_matchFn_none _ _ _ _ _ (h r (by simp)), List.range']
    | cons r' rest =>
      have hr := h r (List.mem_cons_self _ _)
      have h2 := ih (i + 1) (fun x hx => h x (List.mem_cons_of_mem _ hx))
      simp [walkAux, step_of_matchFn_none _ _ _ _ _ hr, h2, List.range'_succ]

/-- Claim C6: when, at some parse position with non-empty remaining source,
every rule in the priority order fails to recognize the input, the engine
loop ends the parse call with the no-matching-rule fatal error and returns
no partial result.  (The rule list must be non-empty: with no rules at all
the do-while body of the source dereferences an undefined rule, a JS
TypeError rather than this error.)
-/
theorem parseLoop_no_matching_rule_error (rules : List Rule) (f : Nat)
    (result : List ASTNode) (source : String) (state : Bag)
    (hne : rules ≠ []) (hs : source.isEmpty = false)
    (hall : ∀ r ∈ rules, r.matchFn source state = none) :
    parseLoop rules (f + 1) result source state = .error (.noMatchingRule source) := by
  obtain ⟨r, rs0, rfl⟩ := List.exists_cons_of_ne_nil hne
  have hw : walk (r :: rs0) source state = (none, List.range' 0 (rs0.length + 1)) :=
    walkAux_none_of_all_none source state (r :: rs0) 0 hall
  rw [parseLoop]
  simp [hs, walk] at hw ⊢
  simp [hw]

/-- Witness for claim C6: a single never-matching rule on source "x". -/
theorem parseLoop_no_matching_rule_error_witness :
    parseLoop [ruleNoMatch] (0 + 1) [] "x" [] = .error (.noMatchingRule "x") :=
  parseLoop_no_matching_rule_error [ruleNoMatch] 0 [] "x" []
    (by simp) (by rfl)
    (by intro r hr; rw [List.mem_singleton] at hr; subst hr; rfl)

/-- Claim C7: when the recognizer of the winning rule returns a capture whose span
does not begin at offset 0 of the remaining source — its index property is
some nonzero k — the engine fails fatally with the unanchored-capture
error instead of building a node or advancing.  (The winning rule name
must be non-empty, since the falsiness test of the source on ruleType routes an
empty name into the no-matching-rule throw first.)
-/
theorem parseLoop_unanchored_capture_error (rules : List Rule) (f : Nat)
    (result : List ASTNode) (source : String) (state : Bag) (c : Cand)
    (cs : List Nat) (k : Nat)
    (hne : rules ≠ []) (hs : source.isEmpty = false)
    (hw : walk rules source state = (some c, cs)) (hname : c.rule.name ≠ "")
    (hidx : c.capture.index = some k) (hk : k ≠ 0) :
    parseLoop rules (f + 1) result source state = .error .unanchoredCapture := by
  obtain ⟨r, rs0, rfl⟩ := List.exists_cons_of_ne_nil hne
  have hviol : anchorViolated c.capture = true := by
    simp [anchorViolated, hidx, hk]
  rw [parseLoop]
  simp [hs, hw, hname, hviol]

/-- Witness for claim C7: a rule whose capture carries index 2. -/
theorem parseLoop_unanchored_capture_error_witness :
    parseLoop [ruleBadAnchor] (0 + 1) [] "x" [] = .error .unanchoredCapture :=
  parseLoop_unanchored_capture_error [ruleBadAnchor] 0 [] "x" []
    ⟨0, ruleBadAnchor, ⟨"x", [], some 2⟩, 0⟩ [0] 2
    (by simp) (by rfl) (by rfl) (by decide) (by rfl) (by decide)

/-- Claim C8: clone() returns an independent registry holding the same rules
in the same order, and any subsequent mutation of the clone (add,
insertBefore, insertAfter, remove) leaves the rule
order and membership of the original registry unchanged.
-/
theorem ruleList_clone_isolated (s : RuleStore) (i : Nat) (m : RegMutation)
    (s'' : RuleStore) (hi : i < s.length)
    (hok : applyMutation (ruleListClone s i).1 (ruleListClone s i).2 m = .ok s'') :
    (ruleListClone s i).1.get? (ruleListClone s i).2 = s.get? i ∧
    s''.get? i = s.get? i := by
  have hclone1 : (ruleListClone s i).1 = s ++ [(s.get? i).getD []] := rfl
  have hclone2 : (ruleListClone s i).2 = s.length := rfl
  have hget : (s ++ [(s.get? i).getD []]).get? s.length = some ((s.get? i).getD []) :=
    List.get?_concat_length s _
  constructor
  · rw [hclone1, hclone2, hget]
    cases hsi : s.get? i with
    | none => exact absurd (List.get?_eq_none.mp hsi) (by omega)
    | some l => simp [hsi]
  · rw [hclone1, hclone2] at hok
    unfold applyMutation at hok
    cases hlm : applyListMutation (((s ++ [(s.get? i).getD []]).get? s.length).getD []) m with
    | error e => rw [hlm] at hok; simp [Except.map] at hok
    | ok l' =>
      rw [hlm] at hok
      simp [Except.map] at hok
      subst hok
      exact List.get?_append hi

/-- Witness for claim C8: clone a one-registry store and add a rule
to the clone; the original still holds exactly its one rule. -/
theorem ruleList_clone_isolated_witness :
    (ruleListClone [[ruleM]] 0).1.get? (ruleListClone [[ruleM]] 0).2 =
      [[ruleM]].get? 0 ∧
    [[ruleM], [ruleM, ruleQB]].get? 0 = [[ruleM]].get? 0 :=
  ruleList_clone_isolated [[ruleM]] 0 (.add ruleQB) [[ruleM], [ruleM, ruleQB]]
    (by decide) (by rfl)

/-- The engine loop on empty remaining source ends at once, returning the
accumulated result without consuming fuel. -/
theorem parseLoop_empty_source (rules : List Rule) (fuel : Nat)
    (result : List ASTNode) (state : Bag) :
    parseLoop rules fuel result "" state = .ok (result, state) := by
  have he : "".isEmpty = true := rfl
  cases fuel with
  | zero => simp [parseLoop, he]
  | succ f => simp [parseLoop, he]

/-- Claim C9, counterexample: parsing the empty input string is NOT a normal
empty-sequence outcome for every rule set and every state.  In block scope
(inline false, the default), outerParse appends two newlines to the source
before parsing, so with a rule set that never matches, parsing "" ends
with the no-matching-rule fatal error rather than an empty node sequence.
-/
theorem outerParse_empty_input_refuted :
    outerParse [ruleNoMatch] [] 1 "" [("inline", JSVal.bool false)] =
      .error (.noMatchingRule "\n\n") := by
  rfl

/-- Claim C9 (amended): parsing the empty input string returns the empty node
sequence without error — for every rule set, fuel and state — whenever the
merged state has a truthy inline or a truthy disableAutoBlockNewlines (so
the engine does not append the block-terminating newlines).  In block
scope the engine first appends two newlines, which the rule set must then
consume.
-/
theorem outerParse_empty_input_inline_ok (rules : List Rule) (dflt : Bag)
    (fuel : Nat) (state : Bag)
    (h : bagTruthy (populateInitialState (some state) dflt) "inline" = true ∨
      bagTruthy (populateInitialState (some state) dflt)
        "disableAutoBlockNewlines" = true) :
    outerParse rules dflt fuel "" state = .ok [] := by
  have hcond : (!bagTruthy (populateInitialState (some state) dflt) "inline" &&
      !bagTruthy (populateInitialState (some state) dflt)
        "disableAutoBlockNewlines") = false := by
    rcases h with h | h <;> simp [h]
  simp only [outerParse, hcond, Bool.false_eq_true, if_false]
  rw [show preprocess "" = "" from rfl, parseLoop_empty_source]
  rfl

/-- Witness for the amended claim C9: inline scope, empty input. -/
theorem outerParse_empty_input_inline_ok_witness :
    outerParse [ruleTextX] [] 3 "" [("inline", JSVal.bool true)] = .ok [] :=
  outerParse_empty_input_inline_ok [ruleTextX] [] 3
    [("inline", JSVal.bool true)] (Or.inl (by rfl))

/-! Lemmas about a single body execution of the rule walk. -/

theorem step_isSome_of_isSome (source : String) (state : Bag) (b : Option Cand)
    (r : Rule) (i : Nat) (h : b.isSome = true) :
    (step source state b r i).isSome = true := by
  cases hm : r.matchFn source state with
  | none => simpa [step, hm] using h
  | some cap =>
    cases b with
    | none => simp at h
    | some c => simp only [step, hm]; split <;> simp

theorem step_isSome_of_matchFn_isSome (source : String) (state : Bag)
    (b : Option Cand) (r : Rule) (i : Nat)
    (h : (r.matchFn source state).isSome = true) :
    (step source state b r i).isSome = true := by
  cases hm : r.matchFn source state with
  | none => rw [hm] at h; simp at h
  | some cap =>
    cases b with
    | none => simp [step, hm]
    | some c => simp only [step, hm]; split <;> simp

theorem step_idx_lt (source : String) (state : Bag) (b : Option Cand)
    (r : Rule) (i : Nat) (hb : ∀ c0, b = some c0 → c0.idx < i) :
    ∀ c, step source state b r i = some c → c.idx < i + 1 := by
  intro c h
  cases b with
  | none =>
    cases hm : r.matchFn source state with
    | none => simp only [step, hm] at h; exact Option.noConfusion h
    | some cap =>
      simp only [step, hm] at h
      injection h with h
      subst h
      exact Nat.lt_succ_self i
  | some c0 =>
    cases hm : r.matchFn source state with
    | none =>
      simp only [step, hm] at h
      exact Nat.lt_succ_of_lt (hb c h)
    | some cap =>
      simp only [step, hm] at h
      split at h
      · injection h with h; subst h; exact Nat.lt_succ_self i
      · injection h with h; subst h; exact Nat.lt_succ_of_lt (hb c0 rfl)

theorem step_provenance (source : String) (state : Bag) (b : Option Cand)
    (r : Rule) (i : Nat) (c : Cand) (h : step source state b r i = some c) :
    b = some c ∨ (c.idx = i ∧ c.rule = r ∧ r.matchFn source state = some c.capture ∧
      c.quality = qualOf r c.capture state) := by
  cases b with
  | none =>
    cases hm : r.matchFn source state with
    | none => simp only [step, hm] at h; exact Option.noConfusion h
    | some cap =>
      simp only [step, hm] at h
      injection h with h
      subst h
      exact Or.inr ⟨rfl, rfl, by simp [hm], rfl⟩
  | some c0 =>
    cases hm : r.matchFn source state with
    | none => simp only [step, hm] at h; exact Or.inl (by rw [h])
    | some cap =>
      simp only [step, hm] at h
      split at h
      · injection h with h; subst h; exact Or.inr ⟨rfl, rfl, by simp [hm], rfl⟩
      · exact Or.inl h

theorem step_persist (source : String) (state : Bag) (b : Option Cand)
    (r : Rule) (i : Nat) (c : Cand) (hb : b = some c) :
    ∃ cf, step source state b r i = some cf ∧ (cf = c ∨ c.quality < cf.quality) := by
  subst hb
  cases hm : r.matchFn source state with
  | none => exact ⟨c, by simp [step, hm], Or.inl rfl⟩
  | some cap =>
    by_cases hq : c.quality < qualOf r cap state
    · exact ⟨⟨i, r, cap, qualOf r cap state⟩, by simp [step, hm, hq], Or.inr hq⟩
    · exact ⟨c, by simp [step, hm, hq], Or.inl rfl⟩

theorem step_dominate (source : String) (state : Bag) (b : Option Cand)
    (r : Rule) (i : Nat) (cap : Capture)
    (hb : ∀ c0, b = some c0 → c0.idx < i)
    (hm : r.matchFn source state = some cap) :
    ∃ cf, step source state b r i = some cf ∧
      (qualOf r cap state < cf.quality ∨
        (qualOf r cap state = cf.quality ∧ cf.idx ≤ i)) := by
  cases b with
  | none =>
    exact ⟨⟨i, r, cap, qualOf r cap state⟩, by simp [step, hm], Or.inr ⟨rfl, le_refl i⟩⟩
  | some c0 =>
    by_cases hq : c0.quality < qualOf r cap state
    · exact ⟨⟨i, r, cap, qualOf r cap state⟩, by simp [step, hm, hq],
        Or.inr ⟨rfl, le_refl i⟩⟩
    · refine ⟨c0, by simp [step, hm, hq], ?_⟩
      rcases lt_or_eq_of_le (not_lt.mp hq) with h | h
      · exact Or.inl h
      · exact Or.inr ⟨h, le_of_lt (hb c0 rfl)⟩

/-! Lemmas about the full rule walk. -/

/-- The consulted positions form a contiguous range starting at the start
position of the walk. -/
theorem walkAux_consulted_range (source : String) (state : Bag) :
    ∀ (l : List Rule) (i : Nat) (b : Option Cand),
      (walkAux source state i b l).2 =
        List.range' i (walkAux source state i b l).2.length := by
  intro l
  induction l with
  | nil => intro i b; simp [walkAux]
  | cons r tl ih =>
    intro i b
    cases tl with
    | nil =>
      show [i] = List.range' i [i].length
      simp [List.range'_succ]
    | cons r' rest =>
      simp only [walkAux]
      by_cases hc : ((step source state b r i).isSome && r'.quality.isNone) = true
      · rw [if_pos hc]
        show [i] = List.range' i [i].length
        simp [List.range'_succ]
      · rw [if_neg hc]
        have h2 := ih (i + 1) (step source state b r i)
        show i :: (walkAux source state (i + 1) (step source state b r i)
            (r' :: rest)).2 = _
        rw [List.length_cons, List.range'_succ, ← h2]

/-- A candidate held before the walk survives to the end, or is replaced
by one of strictly greater quality. -/
theorem walkAux_persist (source : String) (state : Bag) :
    ∀ (l : List Rule) (i : Nat) (b : Option Cand) (c : Cand), b = some c →
      ∃ cf, (walkAux source state i b l).1 = some cf ∧
        (cf = c ∨ c.quality < cf.quality) := by
  intro l
  induction l with
  | nil => intro i b c hb; exact ⟨c, by simp [walkAux, hb], Or.inl rfl⟩
  | cons r tl ih =>
    intro i b c hb
    cases tl with
    | nil => exact step_persist source state b r i c hb
    | cons r' rest =>
      simp only [walkAux]
      obtain ⟨c₁, hc₁, hc₁q⟩ := step_persist source state b r i c hb
      by_cases hc : ((step source state b r i).isSome && r'.quality.isNone) = true
      · rw [if_pos hc]
        exact ⟨c₁, hc₁, hc₁q⟩
      · rw [if_neg hc]
        obtain ⟨cf, hcf, hcfq⟩ := ih (i + 1) (step source state b r i) c₁ hc₁
        refine ⟨cf, hcf, ?_⟩
        rcases hc₁q with h1 | h1
        · subst h1; exact hcfq
        · rcases hcfq with h2 | h2
          · subst h2; exact Or.inr h1
          · exact Or.inr (lt_trans h1 h2)

/-- The final candidate of a walk is either the initial one or a genuine
match found at one of the consulted positions, scored as the source
scores it. -/
theorem walkAux_provenance (source : String) (state : Bag) :
    ∀ (l : List Rule) (i : Nat) (b : Option Cand) (c : Cand),
      (walkAux source state i b l).1 = some c →
      b = some c ∨ (i ≤ c.idx ∧ c.idx ∈ (walkAux source state i b l).2 ∧
        l.get? (c.idx - i) = some c.rule ∧
        c.rule.matchFn source state = some c.capture ∧
        c.quality = qualOf c.rule c.capture state) := by
  intro l
  induction l with
  | nil => intro i b c h; exact Or.inl (by simpa [walkAux] using h)
  | cons r tl ih =>
    intro i b c h
    cases tl with
    | nil =>
      simp only [walkAux] at h ⊢
      rcases step_provenance source state b r i c h with h1 | ⟨h1, h2, h3, h4⟩
      · exact Or.inl h1
      · refine Or.inr ⟨?_, ?_, ?_, ?_, ?_⟩
        · rw [h1]
        · rw [h1]; exact List.mem_singleton_self i
        · rw [h1, h2]; simp [List.get?]
        · rw [h2]; exact h3
        · rw [h2]; exact h4
    | cons r' rest =>
      simp only [walkAux] at h ⊢
      by_cases hc : ((step source state b r i).isSome && r'.quality.isNone) = true
      · rw [if_pos hc] at h ⊢
        rcases step_provenance source state b r i c h with h1 | ⟨h1, h2, h3, h4⟩
        · exact Or.inl h1
        · refine Or.inr ⟨?_, ?_, ?_, ?_, ?_⟩
          · rw [h1]
          · rw [h1]; exact List.mem_singleton_self i
          · rw [h1, h2]; simp [List.get?]
          · rw [h2]; exact h3
          · rw [h2]; exact h4
      · rw [if_neg hc] at h ⊢
        rcases ih (i + 1) (step source state b r i) c h with h1 | ⟨h1, h2, h3, h4, h5⟩
        · rcases step_provenance source state b r i c h1 with h6 | ⟨h6, h7, h8, h9⟩
          · exact Or.inl h6
          · refine Or.inr ⟨?_, ?_, ?_, ?_, ?_⟩
            · rw [h6]
            · rw [h6]; exact List.mem_cons_self i _
            · rw [h6, h7]; simp [List.get?]
            · rw [h7]; exact h8
            · rw [h7]; exact h9
        · refine Or.inr ⟨Nat.le_of_succ_le h1, List.mem_cons_of_mem i h2, ?_, h4, h5⟩
          have hsub : c.idx - i = (c.idx - (i + 1)) + 1 := by omega
          rw [hsub]
          simpa using h3

/-- Every consulted position that matches is dominated by the final
candidate: its quality is strictly below the final quality, or equal with
the final candidate sitting at the same or an earlier position. -/
theorem walkAux_dominance (source : String) (state : Bag) :
    ∀ (l : List Rule) (i : Nat) (b : Option Cand)
      (hb : ∀ c0, b = some c0 → c0.idx < i) (j : Nat) (r' : Rule) (cap' : Capture),
      j ∈ (walkAux source state i b l).2 → l.get? (j - i) = some r' →
      r'.matchFn source state = some cap' →
      ∃ cf, (walkAux source state i b l).1 = some cf ∧
        (qualOf r' cap' state < cf.quality ∨
          (qualOf r' cap' state = cf.quality ∧ cf.idx ≤ j)) := by
  intro l
  induction l with
  | nil => intro i b _ j r' cap' hj; simp [walkAux] at hj
  | cons r tl ih =>
    intro i b hb j r' cap' hj hget hm
    cases tl with
    | nil =>
      simp only [walkAux, List.mem_singleton] at hj ⊢
      subst hj
      simp only [Nat.sub_self, List.get?] at hget
      injection hget with hget
      subst hget
      exact step_dominate source state b r j cap' hb hm
    | cons r'' rest =>
      simp only [walkAux] at hj ⊢
      by_cases hc : ((step source state b r i).isSome && r''.quality.isNone) = true
      · rw [if_pos hc] at hj ⊢
        simp only [List.mem_singleton] at hj
        subst hj
        simp only [Nat.sub_self, List.get?] at hget
        injection hget with hget
        subst hget
        exact step_dominate source state b r j cap' hb hm
      · rw [if_neg hc] at hj ⊢
        simp only [List.mem_cons] at hj
        rcases hj with hj | hj
        · subst hj
          simp only [Nat.sub_self, List.get?] at hget
          injection hget with hget
          subst hget
          obtain ⟨c₁, hc₁, hdom⟩ := step_dominate source state b r j cap' hb hm
          obtain ⟨cf, hcf, hper⟩ :=
            walkAux_persist source state (r'' :: rest) (j + 1)
              (step source state b r j) c₁ hc₁
          refine ⟨cf, hcf, ?_⟩
          rcases hper with h1 | h1
          · subst h1; exact hdom
          · rcases hdom with h2 | h2
            · exact Or.inl (lt_trans h2 h1)
            · exact Or.inl (h2.1 ▸ h1)
        · have hji : i + 1 ≤ j := by
            have hr := walkAux_consulted_range source state (r'' :: rest) (i + 1)
              (step source state b r i)
            rw [hr] at hj
            exact (List.mem_range'_1.mp hj).1
          have hget' : (r'' :: rest).get? (j - (i + 1)) = some r' := by
            have hsub : j - i = (j - (i + 1)) + 1 := by omega
            rw [hsub] at hget
            simpa using hget
          exact ih (i + 1) (step source state b r i)
            (step_idx_lt source state b r i hb) j r' cap' hj hget' hm

/-- A prefix of rules that all fail to match is walked through without
effect: the walk continues past it with no candidate, consulting every
prefix position. -/
theorem walkAux_skip_nonmatching (source : String) (state : Bag) :
    ∀ (A : List Rule) (i : Nat) (rest : List Rule), rest ≠ [] →
      (∀ r ∈ A, r.matchFn source state = none) →
      walkAux source state i none (A ++ rest) =
        ((walkAux source state (i + A.length) none rest).1,
          List.range' i A.length ++
            (walkAux source state (i + A.length) none rest).2) := by
  intro A
  induction A with
  | nil => intro i rest hne h; simp [List.range']
  | cons a A' ih =>
    intro i rest hne h
    have ha := h a (List.mem_cons_self _ _)
    have hA' : ∀ r ∈ A', r.matchFn source state = none :=
      fun r hr => h r (List.mem_cons_of_mem _ hr)
    cases hx : A' ++ rest with
    | nil => exact absurd (List.append_eq_nil.mp hx).2 hne
    | cons x xs =>
      show walkAux source state i none (a :: (A' ++ rest)) = _
      rw [hx]
      simp only [walkAux]
      rw [step_of_matchFn_none source state none a i ha, if_neg (by simp)]
      rw [← hx, ih (i + 1) rest hne hA']
      have harith : i + 1 + A'.length = i + (A'.length + 1) := by omega
      rw [harith]
      simp [List.range'_succ]

/-- Once a candidate is held after consulting a rule, the walk over that
rule, a run of scorer-declaring rules, a scorer-less rule and anything
after it stops exactly at the scorer-less rule: it behaves as the walk
over the rule and the run alone, consulting only those positions. -/
theorem walkAux_stop_at_scorerless (source : String) (state : Bag) (rs : Rule)
    (C : List Rule) (hs : rs.quality = none) :
    ∀ (B : List Rule) (rm : Rule) (i : Nat) (b₀ : Option Cand),
      (step source state b₀ rm i).isSome = true →
      (∀ r ∈ B, r.quality.isSome = true) →
      walkAux source state i b₀ (rm :: (B ++ rs :: C)) =
        ((walkAux source state i b₀ (rm :: B)).1,
          List.range' i (B.length + 1)) := by
  intro B
  induction B with
  | nil =>
    intro rm i b₀ hstep hB
    show walkAux source state i b₀ (rm :: rs :: C) = _
    simp only [walkAux]
    rw [if_pos (by simp [hstep, hs])]
    simp [List.range'_succ]
  | cons b₁ B' ih =>
    intro rm i b₀ hstep hB
    have hb₁ : b₁.quality.isSome = true := hB b₁ (List.mem_cons_self _ _)
    have hb₁' : b₁.quality.isNone = false := by
      cases hq : b₁.quality with
      | none => rw [hq] at hb₁; simp at hb₁
      | some f => simp
    have hB' : ∀ r ∈ B', r.quality.isSome = true :=
      fun r hr => hB r (List.mem_cons_of_mem _ hr)
    show walkAux source state i b₀ (rm :: b₁ :: (B' ++ rs :: C)) = _
    simp only [walkAux]
    rw [if_neg (by simp [hb₁']), if_neg (by simp [hb₁'])]
    rw [ih b₁ (i + 1) (step source state b₀ rm i)
      (step_isSome_of_isSome source state _ b₁ (i + 1) hstep) hB']
    simp [List.range'_succ]

/-- Claim C2: once some rule has produced a candidate match, the rule walk
stops as soon as the next rule in priority order declares no scorer.  With
a non-matching prefix A, a matching rule rm (scorer or not — the boundary
depends only on scorer presence on the rules after the match), a run B of
scorer-declaring rules, then a scorer-less rule rs followed by anything:
the walk consults exactly positions 0 .. A.length + B.length (the range
excludes the position of rs, whatever the match function of rs would do), and
the winning candidate is the one the walk over A, rm and B alone
produces — rs and everything after it can never win.
-/
theorem walk_stops_at_scorerless_rule (source : String) (state : Bag)
    (A B C : List Rule) (rm rs : Rule)
    (hA : ∀ r ∈ A, r.matchFn source state = none)
    (hm : (rm.matchFn source state).isSome = true)
    (hB : ∀ r ∈ B, r.quality.isSome = true)
    (hs : rs.quality = none) :
    walk (A ++ rm :: (B ++ rs :: C)) source state =
      ((walk (A ++ rm :: B) source state).1,
        List.range (A.length + B.length + 1)) ∧
    A.length + B.length + 1 ∉ List.range (A.length + B.length + 1) := by
  constructor
  · show walkAux source state 0 none (A ++ rm :: (B ++ rs :: C)) = _
    rw [walkAux_skip_nonmatching source state A 0 (rm :: (B ++ rs :: C))
      (by simp) hA]
    rw [walkAux_stop_at_scorerless source state rs C hs B rm (0 + A.length) none
      (step_isSome_of_matchFn_isSome source state none rm (0 + A.length) hm) hB]
    rw [show walk (A ++ rm :: B) source state
        = walkAux source state 0 none (A ++ rm :: B) from rfl]
    rw [walkAux_skip_nonmatching source state A 0 (rm :: B) (by simp) hA]
    have hr : List.range' 0 A.length ++ List.range' (0 + A.length) (B.length + 1) =
        List.range (A.length + B.length + 1) := by
      rw [List.range_eq_range']
      have happ := List.range'_append 0 A.length (B.length + 1) 1
      simp only [Nat.zero_add, Nat.one_mul] at happ
      simp only [Nat.zero_add]
      rw [happ]
      congr 1
      omega
    rw [hr]
  · simp [List.mem_range]

/-- Witness for claim C2: a non-matching rule, then a scorer-less matching
rule, then a scorer-declaring matching rule, then a scorer-less rule that
would match but is never consulted. -/
theorem walk_stops_at_scorerless_rule_witness :
    walk [ruleNoMatch, ruleM, ruleQB, ruleS] "x" [] =
      ((walk [ruleNoMatch, ruleM, ruleQB] "x" []).1, List.range 3) ∧
    (3 : Nat) ∉ List.range 3 :=
  walk_stops_at_scorerless_rule "x" [] [ruleNoMatch] [ruleQB] [] ruleM ruleS
    (by intro r hr; rw [List.mem_singleton] at hr; subst hr; rfl)
    (by rfl)
    (by intro r hr; rw [List.mem_singleton] at hr; subst hr; rfl)
    (by rfl)

/-- Claim C3: the winning candidate of the walk is a genuine match — its rule
sits at its recorded position, its capture is what the recognizer of that
rule returned, its score is what the source computes — and it dominates every
consulted position that matches: any such match scores strictly less, or
scores equally with the winner sitting at the same or an earlier position
(earliest wins ties).
-/
theorem walk_picks_highest_quality_earliest (rules : List Rule) (source : String)
    (state : Bag) (cand : Cand) (consulted : List Nat) (j : Nat) (r' : Rule)
    (cap' : Capture)
    (hw : walk rules source state = (some cand, consulted))
    (hj : j ∈ consulted) (hr' : rules.get? j = some r')
    (hcap' : r'.matchFn source state = some cap') :
    rules.get? cand.idx = some cand.rule ∧
    cand.rule.matchFn source state = some cand.capture ∧
    cand.quality = qualOf cand.rule cand.capture state ∧
    cand.idx ∈ consulted ∧
    (qualOf r' cap' state < cand.quality ∨
      (qualOf r' cap' state = cand.quality ∧ cand.idx ≤ j)) := by
  have h1 : (walkAux source state 0 none rules).1 = some cand := by
    show (walk rules source state).1 = some cand
    rw [hw]
  have h2 : (walkAux source state 0 none rules).2 = consulted := by
    show (walk rules source state).2 = consulted
    rw [hw]
  rcases walkAux_provenance source state rules 0 none cand h1 with h3 | ⟨_, h4, h5, h6, h7⟩
  · exact Option.noConfusion h3
  · obtain ⟨cf, hcf, hdom⟩ := walkAux_dominance source state rules 0 none
      (fun c0 hc0 => Option.noConfusion hc0) j r' cap' (h2 ▸ hj)
      (by simpa using hr') hcap'
    have hcfc : cand = cf := by
      rw [h1] at hcf
      injection hcf
    refine ⟨by simpa using h5, h6, h7, h2 ▸ h4, ?_⟩
    rw [hcfc]
    exact hdom

/-- Witness for claim C3: two scorer-declaring rules where the second,
longer match wins on score. -/
theorem walk_picks_highest_quality_earliest_witness :
    [ruleQ1, ruleQ2].get? 1 = some ruleQ2 ∧
    ruleQ2.matchFn "ab" [] = some ⟨"ab", [], none⟩ ∧
    (2 : ℚ) = qualOf ruleQ2 ⟨"ab", [], none⟩ [] ∧
    1 ∈ [0, 1] ∧
    (qualOf ruleQ1 ⟨"a", [], none⟩ [] < 2 ∨
      (qualOf ruleQ1 ⟨"a", [], none⟩ [] = 2 ∧ 1 ≤ 0)) :=
  walk_picks_highest_quality_earliest [ruleQ1, ruleQ2] "ab" []
    ⟨1, ruleQ2, ⟨"ab", [], none⟩, 2⟩ [0, 1] 0 ruleQ1 ⟨"a", [], none⟩
    (by rfl) (by simp) (by rfl) (by rfl)

/-- Appending into a non-empty node sequence never changes the type of its
first node (a merge rewrites the last node keeping its type). -/
theorem appendNode_cons_head (a : ASTNode) (l : List ASTNode) (node : ASTNode) :
    ∃ a2 t, appendNode (a :: l) node = a2 :: t ∧ a2.type = a.type := by
  cases l with
  | nil =>
    by_cases h : node.type = "text" ∧ a.type = "text"
    · exact ⟨ASTNode.mk a.type (some (.inl (contentToString a.content ++
        contentToString node.content))), [], by simp [appendNode, h], rfl⟩
    · exact ⟨a, [node], by simp [appendNode, h], rfl⟩
  | cons b rest => exact ⟨a, appendNode (b :: rest) node, rfl, rfl⟩

/-- The text-collapsing append preserves the no-adjacent-text invariant. -/
theorem appendNode_noAdjacentText :
    ∀ (result : List ASTNode) (node : ASTNode),
      NoAdjacentText result → NoAdjacentText (appendNode result node) := by
  intro result
  induction result with
  | nil => intro node _; trivial
  | cons a rest ih =>
    intro node h
    cases rest with
    | nil =>
      by_cases hc : node.type = "text" ∧ a.type = "text"
      · have : appendNode [a] node = [ASTNode.mk a.type (some (.inl
          (contentToString a.content ++ contentToString node.content)))] := by
          simp [appendNode, hc]
        rw [this]
        trivial
      · have : appendNode [a] node = [a, node] := by simp [appendNode, hc]
        rw [this]
        exact ⟨fun hx => hc ⟨hx.2, hx.1⟩, trivial⟩
    | cons b rest2 =>
      have heq : appendNode (a :: b :: rest2) node =
          a :: appendNode (b :: rest2) node := rfl
      rw [heq]
      obtain ⟨h1, h2⟩ := h
      obtain ⟨a2, t, hat, htype⟩ := appendNode_cons_head b rest2 node
      rw [hat]
      refine ⟨fun hx => h1 ⟨hx.1, htype ▸ hx.2⟩, ?_⟩
      have h3 := ih node h2
      rw [hat] at h3
      exact h3

/-- Claim C5: in every node sequence the parse loop of the engine returns, no two
consecutive nodes both have type text: the loop merges a freshly built
text node into a preceding text node by concatenating content instead of
appending, so runs of text-producing matches collapse.  Stated as the loop
invariant: from an accumulated sequence without adjacent text nodes, any
successful return is a sequence without adjacent text nodes (nestedParse
starts from the empty sequence).
-/
theorem parseLoop_no_adjacent_text_nodes (rules : List Rule) (fuel : Nat)
    (result : List ASTNode) (source : String) (state : Bag)
    (nodes : List ASTNode) (st1 : Bag)
    (hna : NoAdjacentText result)
    (h : parseLoop rules fuel result source state = .ok (nodes, st1)) :
    NoAdjacentText nodes := by
  induction fuel generalizing result source state nodes st1 with
  | zero =>
    rw [parseLoop] at h
    split at h
    · injection h with h
      injection h with h1 h2
      subst h1
      exact hna
    · exact Except.noConfusion h
  | succ f ih =>
    simp only [parseLoop] at h
    split at h
    · injection h with h
      injection h with h1 h2
      subst h1
      exact hna
    · split at h
      · exact Except.noConfusion h
      · split at h
        · exact Except.noConfusion h
        · split at h
          · exact Except.noConfusion h
          · split at h
            · exact Except.noConfusion h
            · split at h
              · exact Except.noConfusion h
              · exact ih _ _ _ _ _ (appendNode_noAdjacentText result _ hna) h

/-- Witness for claim C5: two consecutive one-character text matches
collapse into a single text node holding the concatenation. -/
theorem parseLoop_no_adjacent_text_nodes_witness :
    NoAdjacentText [ASTNode.mk "text" (some (.inl "ab"))] :=
  parseLoop_no_adjacent_text_nodes [ruleTextX] 3 [] "ab" []
    [ASTNode.mk "text" (some (.inl "ab"))]
    [("prevCapture", JSVal.capture "b" [] none)] trivial (by rfl)

/-- Claim C10: the anchor check rejects exactly the captures whose index
property is present and nonzero.  A winning capture whose index property
is absent (a plain array from a hand-written match function) or zero is
never rejected as unanchored: the loop builds the node and the cursor
advances by the length of group 0 of the capture.  (The present-and-
nonzero direction is the unanchored-capture theorem for claim C7.)
-/
theorem anchor_check_only_rejects_nonzero_index (rules : List Rule) (f : Nat)
    (result : List ASTNode) (source : String) (state state₁ : Bag) (c : Cand)
    (cs : List Nat) (parsed : TypeOptionalASTNode)
    (hs : source.isEmpty = false) (hne : rules ≠ [])
    (hw : walk rules source state = (some c, cs)) (hname : c.rule.name ≠ "")
    (hidx : c.capture.index = none ∨ c.capture.index = some 0)
    (hp : c.rule.parse c.capture (fun src st => parseLoop rules f [] src st)
      state = .ok (parsed, state₁)) :
    anchorViolated c.capture = false ∧
    parseLoop rules (f + 1) result source state =
      parseLoop rules f
        (appendNode result (.mk (defaultType parsed.type c.rule.name)
          parsed.content))
        (source.drop c.capture.head.length)
        (setAssoc state₁ "prevCapture"
          (.capture c.capture.head c.capture.groups c.capture.index)) := by
  have hviol : anchorViolated c.capture = false := by
    rcases hidx with h | h <;> simp [anchorViolated, h]
  obtain ⟨r0, rtl, rfl⟩ := List.exists_cons_of_ne_nil hne
  refine ⟨hviol, ?_⟩
  have hw1 : (walk (r0 :: rtl) source state).1 = some c := by rw [hw]
  simp only [parseLoop, hs, Bool.false_eq_true, if_false, hw1, hname,
    if_neg, hviol, hp]

/-- Witness for claim C10: a hand-written match function returning a plain
capture array with no index property is accepted and the cursor advances
by the length of group 0. -/
theorem anchor_check_only_rejects_nonzero_index_witness :
    anchorViolated ⟨"a", [], none⟩ = false ∧
    parseLoop [ruleTextX] (1 + 1) [] "ab" [] =
      parseLoop [ruleTextX] 1
        (appendNode [] (.mk (defaultType (some "text") "text") (some (.inl "a"))))
        ("ab".drop "a".length)
        (setAssoc [] "prevCapture" (.capture "a" [] none)) :=
  anchor_check_only_rejects_nonzero_index [ruleTextX] 1 [] "ab" [] []
    ⟨0, ruleTextX, ⟨"a", [], none⟩, 0⟩ [0] ⟨some "text", some (.inl "a")⟩
    (by rfl) (by simp) (by rfl) (by decide) (Or.inl rfl) (by rfl)

end SimpleMarkdown
